import Mathlib

/-!
Verification development for the PAL-seq poly(A) tail-length estimation script
(`Tail-seq_polyA_tail_length_estimation_from_HMM_Multi_processing_v15.py`).

The Python source is shallowly embedded below.  Machine floats are modelled by
`Fl` (a rational value or NaN); channel intensities, which the script parses
with `int(...)`, are modelled by `Int`.  The base-2 logarithm applied to the
(always positive) intensity ratio is abstracted as a parameter
`log2 : Rat -> Rat`; every theorem below is independent of its values, except
where a concrete instantiation is supplied.  Per-record failures, which the
script signals by `return None`, are modelled by `Option`; the `sys.exit`
call inside `worker_hmm` is modelled by `Except`.
-/

set_option autoImplicit false

namespace PalSeq

/-- A machine float as used by the script: either NaN (produced by
`numpy.mean` of an empty list, and propagated through further means) or an
exact rational value. -/
inductive Fl where
  | nan : Fl
  | fin : ℚ → Fl
  deriving DecidableEq, Repr

/-- `numpy.mean` on a list of floats: NaN on the empty list, NaN if any
element is NaN, otherwise the exact arithmetic mean. -/
def finSum : List Fl → ℚ
  | [] => 0
  | .nan :: t => finSum t
  | .fin q :: t => q + finSum t

/-- Mean of a list of floats, with `numpy`'s NaN behaviour. -/
def flMean (l : List Fl) : Fl :=
  if l = [] then .nan
  else if Fl.nan ∈ l then .nan
  else .fin (finSum l / l.length)

/-- One cell of the working list `all_T` in `Convert2T`: either the string
marker `'empty'` or a float. -/
inductive Entry where
  | empty : Entry
  | num : Fl → Entry
  deriving DecidableEq, Repr

/-- The four channel intensities of one base position (`lst4c` in the
script, parsed with `int`). -/
structure Chan4 where
  a : ℤ
  c : ℤ
  g : ℤ
  t : ℤ
  deriving DecidableEq, Repr

/-- The global parameter dictionary `params` of the script (the fields used
by the embedded functions). -/
structure Params where
  r1_len : ℕ := 52
  dis2T : ℕ := 0
  r1_nor_start : ℕ := 20
  r1_nor_end : ℕ := 50
  bound : ℚ := 5
  all_zero_limit : ℕ := 5
  non_T_limit : ℕ := 2
  training_max : ℕ := 50000
  training_min : ℕ := 5000
  training_ratio : ℚ := 1 / 100
  deriving DecidableEq, Repr

/-- The default values of the script's `params` dictionary. -/
def params : Params := {}

/-- `dict_value` after the averaging step of `Convert2T`: one positive mean
intensity per channel. -/
structure Profile where
  A : ℚ
  C : ℚ
  G : ℚ
  T : ℚ
  deriving DecidableEq, Repr

/-- `dict_4c[base]`: the intensity of the channel named by a base
character. -/
def chanOf (g : Chan4) (c : Char) : ℤ :=
  if c = 'A' then g.a
  else if c = 'C' then g.c
  else if c = 'G' then g.g
  else if c = 'T' then g.t
  else 0

/-- The 1-based base positions of read 1 scanned by the normalization loop:
`range(r1_nor_start, r1_nor_end + 1)`. -/
def normPositions (p : Params) : List ℕ :=
  List.range' p.r1_nor_start (p.r1_nor_end + 1 - p.r1_nor_start)

/-- The bucket `dict_value[c]` accumulated by the first loop of `Convert2T`:
the intensities of channel `c` at normalization-window positions whose read-1
base call is `c` and whose intensity in channel `c` is strictly positive.
Intensity group `i - 1` is `lst[i - 1 + 4]` of the intensity line. -/
def normBucket (p : Params) (r1seq : List Char) (groups : List Chan4) (c : Char) : List ℤ :=
  (normPositions p).filterMap fun i =>
    if r1seq.getD (i - 1) 'N' = c ∧ 0 < chanOf (groups.getD (i - 1) ⟨0, 0, 0, 0⟩) c then
      some (chanOf (groups.getD (i - 1) ⟨0, 0, 0, 0⟩) c)
    else none

/-- `numpy.mean` of a list of integer intensities. -/
def intMean (l : List ℤ) : ℚ :=
  (l.sum : ℚ) / l.length

/-- Part 1 of `Convert2T`: per-channel normalization.  Returns `none`
(Python `return None`) as soon as some channel's bucket is empty, otherwise
the four bucket means. -/
def normalize (p : Params) (r1seq : List Char) (groups : List Chan4) : Option Profile :=
  if normBucket p r1seq groups 'A' = [] ∨ normBucket p r1seq groups 'C' = [] ∨
      normBucket p r1seq groups 'G' = [] ∨ normBucket p r1seq groups 'T' = [] then
    none
  else
    some ⟨intMean (normBucket p r1seq groups 'A'), intMean (normBucket p r1seq groups 'C'),
      intMean (normBucket p r1seq groups 'G'), intMean (normBucket p r1seq groups 'T')⟩

/-- `T_signal = max(-bound, min(T_signal, bound))`. -/
def clip (B x : ℚ) : ℚ := max (-B) (min x B)

/-- One iteration of the second loop of `Convert2T`: an all-zero intensity
group becomes the `'empty'` marker; otherwise each channel is normalized
(with the `1 / dict_value[key]` substitute for non-positive raw values), the
T ratio is taken, log-2 transformed and clipped. -/
def rawT (p : Params) (log2 : ℚ → ℚ) (prof : Profile) (g : Chan4) : Entry :=
  if g = ⟨0, 0, 0, 0⟩ then .empty
  else
    let nA : ℚ := if g.a ≤ 0 then 1 / prof.A else (g.a : ℚ) / prof.A
    let nC : ℚ := if g.c ≤ 0 then 1 / prof.C else (g.c : ℚ) / prof.C
    let nG : ℚ := if g.g ≤ 0 then 1 / prof.G else (g.g : ℚ) / prof.G
    let nT : ℚ := if g.t ≤ 0 then 1 / prof.T else (g.t : ℚ) / prof.T
    .num (.fin (clip p.bound (log2 (nT / (nA + nC + nG)))))

/-- `all_T.count('empty')`. -/
def countEmpty (l : List Entry) : ℕ :=
  l.countP fun e => decide (e = .empty)

/-- The float values of the non-`'empty'` cells of a list, in order
(`[x for x in sliding_T if x != 'empty']`). -/
def numsOf (l : List Entry) : List Fl :=
  l.filterMap fun e => match e with | .empty => none | .num f => some f

/-- The Python slice `acc[max(0, k - L) : min(len(acc), k + L)]` used as the
imputation window around position `k`. -/
def winSlice (L : ℕ) (acc : List Entry) (k : ℕ) : List Entry :=
  (acc.drop (k - L)).take (min acc.length (k + L) - (k - L))

/-- One iteration of the imputation loop: if cell `k` is the `'empty'`
marker, overwrite it in place with the mean of the non-marker values in the
sliding window of the current list. -/
def imputeStepF (L : ℕ) (acc : List Entry) (k : ℕ) : List Entry :=
  if acc[k]? = some .empty then
    acc.set k (.num (flMean (numsOf (winSlice L acc k))))
  else acc

/-- Run imputation steps at each index of a list of indices, left to
right. -/
def imputeLoop (L : ℕ) (acc : List Entry) : List ℕ → List Entry
  | [] => acc
  | k :: ks => imputeLoop L (imputeStepF L acc k) ks

/-- The state of `all_T` after the imputation loop has processed positions
`0, 1, ..., k - 1`. -/
def imputeUpTo (L : ℕ) (l : List Entry) (k : ℕ) : List Entry :=
  imputeLoop L l (List.range k)

/-- The full imputation loop `for k in range(len(all_T)): ...` of
`Convert2T`. -/
def imputePass (L : ℕ) (l : List Entry) : List Entry :=
  imputeLoop L l (List.range l.length)

/-- The signal-region intensity groups: the second loop of `Convert2T` runs
`j` from `5 + r1_len + dis2T` to `len(lst)`, i.e. over intensity groups
`r1_len + dis2T` onwards. -/
def signalGroups (p : Params) (groups : List Chan4) : List Chan4 :=
  groups.drop (p.r1_len + p.dis2T)

/-- Part 2 of `Convert2T` given a completed normalization profile: convert
the signal region, fail (`return None`) if the `'empty'` markers reach
`all_zero_limit`, otherwise impute the markers and prepend the pseudo-T
sentinel `bound * 100`. -/
def convertSignal (p : Params) (log2 : ℚ → ℚ) (prof : Profile) (groups : List Chan4) :
    Option (List Entry) :=
  let sig := (signalGroups p groups).map (rawT p log2 prof)
  if p.all_zero_limit ≤ countEmpty sig then none
  else some (.num (.fin (p.bound * 100)) :: imputePass p.all_zero_limit sig)

/-- The whole `Convert2T` function: normalization followed by conversion,
with normalization failure short-circuiting the record. -/
def Convert2T (p : Params) (log2 : ℚ → ℚ) (r1seq : List Char) (groups : List Chan4) :
    Option (List Entry) :=
  match normalize p r1seq groups with
  | none => none
  | some prof => convertSignal p log2 prof groups

/-- One read-2 intensity line handed to `worker_C2T`: its cluster identifier
(the `':'.join(lst[:3])` key) and its parsed intensity groups. -/
structure C2TLine where
  id : String
  groups : List Chan4

/-- One entry of the master dictionary `mdict` at conversion time:
`mdict[idx] = [gene name, untrimmed read1 sequence, QC of read1]` (the QC
string is never used by `Convert2T` and is omitted). -/
structure MEntry where
  gene : String
  seq : List Char

/-- The value stored by `Convert2T` through `worker_C2T` for one converted
cluster: gene name and T-signal vector. -/
abbrev C2TOut := List (String × String × List Entry)

/-- `worker_C2T`: process the allocated lines in order, skipping lines whose
identifier is not in `mdict` and lines for which `Convert2T` returns `None`;
successful conversions are `setdefault`-inserted into the result dictionary
and appended to the training list when the identifier was sampled. -/
def worker_C2T (p : Params) (log2 : ℚ → ℚ) (mdict : List (String × MEntry))
    (trainKeys : List String) :
    List C2TLine → C2TOut → List (List Entry) → C2TOut × List (List Entry)
  | [], d, t => (d, t)
  | l :: rest, d, t =>
    match mdict.find? (fun e => e.1 == l.id) with
    | none => worker_C2T p log2 mdict trainKeys rest d t
    | some me =>
      match Convert2T p log2 me.2.seq l.groups with
      | none => worker_C2T p log2 mdict trainKeys rest d t
      | some temp =>
        let d' := if (d.find? (fun e => e.1 == l.id)).isSome then d
          else d ++ [(l.id, me.2.gene, temp)]
        let t' := if trainKeys.contains l.id then t ++ [temp] else t
        worker_C2T p log2 mdict trainKeys rest d' t'

/-- The conversion outcome of one line under a given master dictionary: the
`Convert2T` value when the identifier is present, `none` when the line is
skipped for lack of a dictionary entry. -/
def convFor (p : Params) (log2 : ℚ → ℚ) (mdict : List (String × MEntry)) (l : C2TLine) :
    Option (List Entry) :=
  match mdict.find? (fun e => e.1 == l.id) with
  | none => none
  | some me => Convert2T p log2 me.2.seq l.groups

/-! ### The tail-length caller (`worker_hmm`) -/

/-- `model.N` for the 5-state model built by the script (`pi` has five
entries). -/
def hmmN : ℕ := 5

/-- `[i for i, x in enumerate(states) if x > ((model.N - 1) / 2)]`: the
indices of non-A states (state index strictly above `(5 - 1) / 2 = 2`). -/
def nonAIdx (states : List ℕ) : List ℕ :=
  states.enum.filterMap fun ix => if (hmmN - 1) / 2 < ix.2 then some ix.1 else none

/-- The scanning loop of `worker_hmm` over the non-A index list: indices at
most `non_T_limit` update the running `start_idx`; the first larger index
becomes `end_idx` and the loop breaks. -/
def scanIdx (limit : ℕ) : List ℕ → ℕ × ℕ → ℕ × ℕ
  | [], se => se
  | i :: rest, se => if i ≤ limit then scanIdx limit rest (i, se.2) else (se.1, i)

/-- The boundary rule of `worker_hmm` (lines 256-267 of the script): scan
the non-A indices starting from `start_idx = 0`, `end_idx = len(states)`,
and return `(start_idx, end_idx, end_idx - start_idx - 1)`. -/
def callTail (limit : ℕ) (states : List ℕ) : ℕ × ℕ × ℤ :=
  let se := scanIdx limit (nonAIdx states) (0, states.length)
  (se.1, se.2, (se.2 : ℤ) - (se.1 : ℤ) - 1)

/-- One line of the T-signal intermediate file as consumed by `worker_hmm`:
cluster identifier, gene name, and the T-signal values `l[2:]`. -/
structure SigLine where
  id : String
  gene : String
  sig : List ℚ

/-- The per-cluster output of `worker_hmm`: identifier mapped to gene,
tail length and state path. -/
abbrev HmmOut := List (String × String × ℤ × List ℕ)

/-- `worker_hmm`: decode each line with the (externally provided) Viterbi
decoder, abort the whole worker with `sys.exit` (modelled as `Except.error`)
on an empty state path, otherwise call the tail length and accumulate the
per-cluster dictionary (`setdefault`) and the `(gene, tail length)` list. -/
def worker_hmm (viterbi : List ℚ → List ℕ) (limit : ℕ) :
    List SigLine → HmmOut → List (String × ℤ) → Except String (HmmOut × List (String × ℤ))
  | [], d, t => .ok (d, t)
  | l :: rest, d, t =>
    let states := viterbi l.sig
    if states = [] then .error "cannot infer the states from the model"
    else
      let tl := (callTail limit states).2.2
      let d' := if (d.find? (fun e => e.1 == l.id)).isSome then d
        else d ++ [(l.id, l.gene, tl, states)]
      worker_hmm viterbi limit rest d' (t ++ [(l.gene, tl)])

/-! ### Master-dictionary construction from the bedtools stream -/

/-- One step of the master-dictionary loop: an identifier already present in
`mdict` is recorded in `dict_dup`, otherwise the pair is inserted. -/
def mdictStep (acc : List (String × String) × List String) (e : String × String) :
    List (String × String) × List String :=
  if ((acc.1.find? (fun x => x.1 == e.1)).isSome) then
    (acc.1, if acc.2.contains e.1 then acc.2 else acc.2 ++ [e.1])
  else
    (acc.1 ++ [e], acc.2)

/-- The first pass over the `(read identifier, gene identifier)` stream:
builds `mdict` and the duplicate set `dict_dup`. -/
def mdictPass (s : List (String × String)) : List (String × String) × List String :=
  s.foldl mdictStep ([], [])

/-- The master dictionary after the dedup pass: every key recorded in
`dict_dup` is deleted (`for key in dict_dup: del mdict[key]`). -/
def buildMdict (s : List (String × String)) : List (String × String) :=
  (mdictPass s).1.filter fun e => !((mdictPass s).2.contains e.1)

/-! ### Training-set selection (mode 1, module top level) -/

/-- The `-t` option: which pool the training set is sampled from. -/
inductive TrainSel where
  | fish : TrainSel
  | human : TrainSel
  | all : TrainSel
  deriving DecidableEq, Repr

/-- Python `int(...)` applied to a nonnegative rational product: truncation
towards zero. -/
def intTrunc (q : ℚ) : ℕ := (q.num / (q.den : ℤ)).toNat

/-- The `args.t == 'all'` branch of the training-set selection: sample
`min(max(int(P * training_ratio), training_min), training_max)` reads when
the pool has at least `training_min` members, otherwise `sys.exit()`
(modelled by `none`). -/
def trainAllCase (p : Params) (allSize : ℕ) : Option ℕ :=
  if p.training_min ≤ allSize then
    some (min (max (intTrunc ((allSize : ℚ) * p.training_ratio)) p.training_min) p.training_max)
  else none

/-- The training-set selection of mode 1 (script lines 471-493), given the
sizes of the gene-prefix-restricted pool (`len(sele_dict)`) and of the full
pool (`len(mdict)`).  A `fish`/`human` selection uses ten times the
configured training ratio and falls back to the `all` branch when the
restricted pool is below `training_min`. -/
def trainSelect (p : Params) (t : TrainSel) (seleSize allSize : ℕ) : Option ℕ :=
  if t ≠ .all then
    if p.training_min ≤ seleSize then
      some (min (max (intTrunc ((seleSize : ℚ) * p.training_ratio * 10)) p.training_min)
        p.training_max)
    else trainAllCase p allSize
  else trainAllCase p allSize

/-! ### The random line sampler (`lines_sampler`) -/

/-- Consume the rest of the current line: everything up to and including the
first newline is discarded (the first `f.readline()` after a seek). -/
def skipLine (s : List Char) : List Char :=
  match s.dropWhile (fun ch => !(ch == '\n')) with
  | [] => []
  | _ :: rest => rest

/-- `f.readline()`: the next line including its trailing newline, or the
remaining characters at end of file. -/
def takeLine (s : List Char) : List Char :=
  s.takeWhile (fun ch => !(ch == '\n')) ++ (s.dropWhile (fun ch => !(ch == '\n'))).take 1

/-- What one sampled byte offset contributes: seek to the offset, skip the
(possibly partial) current line, read the next line; an empty read yields
nothing. -/
def lineAt (file : List Char) (off : ℕ) : Option (List Char) :=
  let l := takeLine (skipLine (file.drop off))
  if l = [] then none else some l

/-- Python `str.rstrip()`: remove trailing whitespace. -/
def rstrip (l : List Char) : List Char :=
  (l.reverse.dropWhile (fun ch => ch == ' ' || ch == '\t' || ch == '\n' || ch == '\r')).reverse

/-- Split a line on tab characters. -/
def splitTab (l : List Char) : List (List Char) :=
  List.splitOn '\t' l

/-- `line.rstrip().split('\t')[2:]`: the T-signal fields of a sampled
line. -/
def parseSig (l : List Char) : List (List Char) :=
  (splitTab (rstrip l)).drop 2

/-- `lines_sampler` as a function of the sampled byte offsets (the script
draws them as a sorted sample of distinct offsets below the file size): each
offset contributes the parsed line following it, when non-empty. -/
def lines_sampler (file : List Char) (offsets : List ℕ) : List (List (List Char)) :=
  offsets.filterMap fun off => (lineAt file off).map parseSig

/-! ## Lemmas about the imputation loop -/

theorem length_imputeStepF (L : ℕ) (acc : List Entry) (k : ℕ) :
    (imputeStepF L acc k).length = acc.length := by
  unfold imputeStepF
  split <;> simp

theorem length_imputeLoop (L : ℕ) (ks : List ℕ) (acc : List Entry) :
    (imputeLoop L acc ks).length = acc.length := by
  induction ks generalizing acc with
  | nil => rfl
  | cons k ks ih => rw [imputeLoop, ih, length_imputeStepF]

theorem imputeStepF_getElem?_ne (L : ℕ) (acc : List Entry) {j k : ℕ} (h : k ≠ j) :
    (imputeStepF L acc k)[j]? = acc[j]? := by
  unfold imputeStepF
  split
  · exact List.getElem?_set_ne h
  · rfl

theorem imputeLoop_getElem?_not_mem (L : ℕ) {ks : List ℕ} {j : ℕ} (acc : List Entry)
    (h : j ∉ ks) : (imputeLoop L acc ks)[j]? = acc[j]? := by
  induction ks generalizing acc with
  | nil => rfl
  | cons k ks ih =>
    rw [imputeLoop, ih _ (fun hj => h (List.mem_cons_of_mem _ hj)),
      imputeStepF_getElem?_ne L acc (fun hk => h (by rw [← hk]; exact List.mem_cons_self _ _))]

theorem imputeLoop_append (L : ℕ) (acc : List Entry) (xs ys : List ℕ) :
    imputeLoop L acc (xs ++ ys) = imputeLoop L (imputeLoop L acc xs) ys := by
  induction xs generalizing acc with
  | nil => rfl
  | cons x xs ih => rw [List.cons_append, imputeLoop, imputeLoop, ih]

theorem imputeUpTo_getElem?_ge (L : ℕ) (l : List Entry) {j k : ℕ} (h : k ≤ j) :
    (imputeUpTo L l k)[j]? = l[j]? :=
  imputeLoop_getElem?_not_mem L l (fun hj => absurd (List.mem_range.mp hj) (not_lt.mpr h))

/-- Splitting the imputation pass at position `k`: process positions below
`k`, then position `k` itself, then the rest. -/
theorem imputePass_split (L : ℕ) (l : List Entry) {k : ℕ} (hk : k < l.length) :
    imputePass L l =
      imputeLoop L (imputeStepF L (imputeUpTo L l k) k)
        (List.range' (k + 1) (l.length - (k + 1))) := by
  have hsplit : List.range l.length = List.range k ++ List.range' k (l.length - k) := by
    rw [List.range_eq_range', List.range_eq_range']
    have h0 := List.range'_append 0 k (l.length - k) 1
    simp only [one_mul, zero_add] at h0
    rw [h0, Nat.sub_add_cancel (le_of_lt hk)]
  have hcons : List.range' k (l.length - k) = k :: List.range' (k + 1) (l.length - (k + 1)) := by
    have h1 : l.length - k = (l.length - (k + 1)) + 1 := by omega
    rw [h1, List.range'_succ]
  rw [imputePass, hsplit, imputeLoop_append, hcons, imputeLoop]
  rfl

/-- The value of the imputation pass at a position that was an `'empty'`
marker: the mean of the non-marker values in the window of the working list
at the time that position is processed. -/
theorem imputePass_getElem?_empty (L : ℕ) (l : List Entry) {k : ℕ}
    (hk : l[k]? = some .empty) :
    (imputePass L l)[k]? =
      some (.num (flMean (numsOf (winSlice L (imputeUpTo L l k) k)))) := by
  have hklt : k < l.length := by
    rcases List.getElem?_eq_some.mp hk with ⟨h, _⟩
    exact h
  have hupto : (imputeUpTo L l k)[k]? = some .empty := by
    rw [imputeUpTo_getElem?_ge L l (le_refl k)]; exact hk
  have hstep : imputeStepF L (imputeUpTo L l k) k =
      (imputeUpTo L l k).set k (.num (flMean (numsOf (winSlice L (imputeUpTo L l k) k)))) := by
    rw [imputeStepF, if_pos hupto]
  have hlen : (imputeUpTo L l k).length = l.length := length_imputeLoop L (List.range k) l
  rw [imputePass_split L l hklt, hstep,
    imputeLoop_getElem?_not_mem L _ (by
      intro hmem
      rcases List.mem_range'.mp hmem with ⟨i, _, hi⟩
      omega)]
  exact List.getElem?_set_self (by rw [hlen]; exact hklt)

/-- A position that was not a marker is untouched by the imputation pass. -/
theorem imputePass_getElem?_num (L : ℕ) (l : List Entry) {k : ℕ} {f : Fl}
    (hk : l[k]? = some (.num f)) : (imputePass L l)[k]? = some (.num f) := by
  by_cases hklt : k < l.length
  · have hupto : (imputeUpTo L l k)[k]? = some (.num f) := by
      rw [imputeUpTo_getElem?_ge L l (le_refl k)]; exact hk
    have hstep : imputeStepF L (imputeUpTo L l k) k = imputeUpTo L l k := by
      rw [imputeStepF, if_neg]
      rw [hupto]
      simp
    rw [imputePass_split L l hklt, hstep,
      imputeLoop_getElem?_not_mem L _ (by
        intro hmem
        rcases List.mem_range'.mp hmem with ⟨i, _, hi⟩
        omega)]
    exact hupto
  · rw [List.getElem?_eq_none (by omega : l.length ≤ k)] at hk
    exact absurd hk (by simp)

theorem countEmpty_eq_zero {l : List Entry} :
    countEmpty l = 0 ↔ ∀ e ∈ l, e ≠ Entry.empty := by
  unfold countEmpty
  rw [List.countP_eq_zero]
  simp

/-- After the imputation pass no `'empty'` marker remains: every marker is
overwritten with a float (possibly NaN). -/
theorem length_imputePass (L : ℕ) (l : List Entry) :
    (imputePass L l).length = l.length :=
  length_imputeLoop L (List.range l.length) l

theorem countEmpty_imputePass (L : ℕ) (l : List Entry) :
    countEmpty (imputePass L l) = 0 := by
  rw [countEmpty_eq_zero]
  intro e he hempty
  rcases List.mem_iff_getElem?.mp he with ⟨k, hk⟩
  have hklen : k < l.length := by
    have h1 : k < (imputePass L l).length := (List.getElem?_eq_some.mp hk).1
    rwa [length_imputePass] at h1
  rcases h : l[k]? with _ | e'
  · exact absurd h (by simp [List.getElem?_eq_none_iff]; omega)
  · cases e' with
    | empty =>
      rw [imputePass_getElem?_empty L l h, hempty] at hk
      exact absurd (Option.some.inj hk) (by simp)
    | num f =>
      rw [imputePass_getElem?_num L l h, hempty] at hk
      exact absurd (Option.some.inj hk) (by simp)

/-! ## Claims about the conversion engine -/

/-- C9: sliding-window imputation is idempotent — on a vector containing no
`'empty'` marker the imputation loop leaves every element unchanged. -/
theorem imputePass_idempotent (L : ℕ) (l : List Entry) (h : countEmpty l = 0) :
    imputePass L l = l := by
  have hno : ∀ (k : ℕ), l[k]? ≠ some Entry.empty := by
    intro k hk
    rcases List.getElem?_eq_some.mp hk with ⟨hlt, heq⟩
    exact (countEmpty_eq_zero.mp h _ (heq ▸ List.getElem_mem hlt)) rfl
  have : ∀ ks : List ℕ, imputeLoop L l ks = l := by
    intro ks
    induction ks with
    | nil => rfl
    | cons k ks ih =>
      rw [imputeLoop, imputeStepF, if_neg (hno k), ih]
  exact this _

/-- Witness for the idempotence theorem at a concrete marker-free vector. -/
theorem imputePass_idempotent_witness :
    imputePass 5 [Entry.num (.fin 1), Entry.num .nan, Entry.num (.fin (-2))] =
      [Entry.num (.fin 1), Entry.num .nan, Entry.num (.fin (-2))] :=
  imputePass_idempotent 5 _ (by decide)

/-- C3: the conversion phase fails (returns `None`) exactly when the number
of all-zero positions in the signal region reaches `all_zero_limit`; below
the limit it succeeds and every `'empty'` marker is imputed away. -/
theorem convert_missing_limit (p : Params) (log2 : ℚ → ℚ) (prof : Profile)
    (groups : List Chan4) :
    (convertSignal p log2 prof groups = none ↔
      p.all_zero_limit ≤ countEmpty ((signalGroups p groups).map (rawT p log2 prof)))
    ∧ (countEmpty ((signalGroups p groups).map (rawT p log2 prof)) < p.all_zero_limit →
      convertSignal p log2 prof groups = some (Entry.num (.fin (p.bound * 100)) ::
        imputePass p.all_zero_limit ((signalGroups p groups).map (rawT p log2 prof))) ∧
      countEmpty (Entry.num (.fin (p.bound * 100)) ::
        imputePass p.all_zero_limit ((signalGroups p groups).map (rawT p log2 prof))) = 0) := by
  have hdef : convertSignal p log2 prof groups =
      if p.all_zero_limit ≤ countEmpty ((signalGroups p groups).map (rawT p log2 prof)) then
        none
      else
        Option.some (Entry.num (.fin (p.bound * 100)) ::
          imputePass p.all_zero_limit ((signalGroups p groups).map (rawT p log2 prof))) := rfl
  constructor
  · rw [hdef]
    by_cases hcond :
        p.all_zero_limit ≤ countEmpty ((signalGroups p groups).map (rawT p log2 prof))
    · simp [hcond]
    · simp [hcond]
  · intro hlt
    refine ⟨?_, ?_⟩
    · rw [hdef, if_neg (by omega)]
    · rw [show countEmpty (Entry.num (.fin (p.bound * 100)) ::
          imputePass p.all_zero_limit ((signalGroups p groups).map (rawT p log2 prof))) =
          countEmpty (imputePass p.all_zero_limit
            ((signalGroups p groups).map (rawT p log2 prof))) from by
        unfold countEmpty; simp]
      exact countEmpty_imputePass _ _

/-- Witness for the missing-limit theorem: a two-position signal region with
one all-zero position converts successfully with no marker left. -/
theorem convert_missing_limit_witness :
    countEmpty (Entry.num (.fin (Params.bound { r1_len := 0, all_zero_limit := 2 } * 100)) ::
      imputePass 2 ((signalGroups { r1_len := 0, all_zero_limit := 2 }
        [⟨0, 0, 0, 0⟩, ⟨1, 1, 1, 2⟩]).map
        (rawT { r1_len := 0, all_zero_limit := 2 } (fun q => q) ⟨1, 1, 1, 1⟩))) = 0 :=
  ((convert_missing_limit { r1_len := 0, all_zero_limit := 2 } (fun q => q) ⟨1, 1, 1, 1⟩
    [⟨0, 0, 0, 0⟩, ⟨1, 1, 1, 2⟩]).2 (by decide)).2

/-- The imputation window as described by the specification: indices `k - L`
through `k + L` inclusive, clipped at the sequence boundaries.  This
definition follows the spec's words, for comparison with `winSlice`, the
slice the code actually takes. -/
def winSliceSpec (L : ℕ) (acc : List Entry) (k : ℕ) : List Entry :=
  (acc.drop (k - L)).take (min acc.length (k + L + 1) - (k - L))

/-- C2 counterexample: with `L = all_zero_limit = 5`, a missing position at
index 0 of a six-element signal vector passing the missing-count check is
filled with the mean over indices `0..4` (the Python slice excludes
`k + L`), not with the mean over the claimed symmetric window `0..5`. -/
theorem impute_window_claim_cex :
    countEmpty [Entry.empty, Entry.num (.fin 1), Entry.num (.fin 1), Entry.num (.fin 1),
        Entry.num (.fin 1), Entry.num (.fin 7)] < 5 ∧
    [Entry.empty, Entry.num (.fin 1), Entry.num (.fin 1), Entry.num (.fin 1),
        Entry.num (.fin 1), Entry.num (.fin 7)][0]? = some Entry.empty ∧
    (imputePass 5 [Entry.empty, Entry.num (.fin 1), Entry.num (.fin 1), Entry.num (.fin 1),
        Entry.num (.fin 1), Entry.num (.fin 7)])[0]? ≠
      some (Entry.num (flMean (numsOf (winSliceSpec 5
        [Entry.empty, Entry.num (.fin 1), Entry.num (.fin 1), Entry.num (.fin 1),
          Entry.num (.fin 1), Entry.num (.fin 7)] 0)))) := by
  refine ⟨by decide, by decide, ?_⟩
  have hcode : (imputePass 5 [Entry.empty, Entry.num (.fin 1), Entry.num (.fin 1),
      Entry.num (.fin 1), Entry.num (.fin 1), Entry.num (.fin 7)])[0]? =
      some (Entry.num (.fin 1)) := by
    simp [imputePass, imputeLoop, imputeStepF, winSlice, numsOf, flMean, finSum,
      List.range_succ]
    norm_num
  have hspec : flMean (numsOf (winSliceSpec 5
      [Entry.empty, Entry.num (.fin 1), Entry.num (.fin 1), Entry.num (.fin 1),
        Entry.num (.fin 1), Entry.num (.fin 7)] 0)) = .fin (11 / 5) := by
    simp [winSliceSpec, numsOf, flMean, finSum]
    norm_num
  rw [hcode, hspec]
  intro hcontra
  have h1 : (1 : ℚ) = 11 / 5 := Fl.fin.inj (Entry.num.inj (Option.some.inj hcontra))
  norm_num at h1

/-- C2 (amended): a missing position `k` of a record passing the
missing-count check is filled with the mean of the non-missing values in the
Python slice `[max(0, k - L) : min(n, k + L)]` — indices `k - L` through
`k + L - 1`, clipped — of the working vector at the time `k` is processed
(positions are imputed left to right, in place). -/
theorem impute_window_amended (L : ℕ) (l : List Entry) (k : ℕ)
    (hk : l[k]? = some Entry.empty) (_hcount : countEmpty l < L) :
    (imputePass L l)[k]? =
      some (Entry.num (flMean (numsOf (winSlice L (imputeUpTo L l k) k)))) :=
  imputePass_getElem?_empty L l hk

/-- Witness for the amended imputation-window theorem. -/
theorem impute_window_amended_witness :
    (imputePass 2 [Entry.num (.fin 2), Entry.empty])[1]? =
      some (Entry.num (flMean (numsOf (winSlice 2
        (imputeUpTo 2 [Entry.num (.fin 2), Entry.empty] 1) 1)))) :=
  impute_window_amended 2 [Entry.num (.fin 2), Entry.empty] 1 (by decide) (by decide)

/-! ## Boundedness of converted values -/

/-- A float that is NaN or a finite value within `[-B, B]`. -/
def FlOK (B : ℚ) (f : Fl) : Prop :=
  f = .nan ∨ ∃ q, f = .fin q ∧ -B ≤ q ∧ q ≤ B

/-- A working-list cell that is the missing marker, NaN, or a finite value
within `[-B, B]`. -/
def EntryOK (B : ℚ) (e : Entry) : Prop :=
  e = .empty ∨ ∃ f, e = .num f ∧ FlOK B f

theorem finSum_bounds (B : ℚ) (l : List Fl)
    (h : ∀ f ∈ l, ∃ q, f = Fl.fin q ∧ -B ≤ q ∧ q ≤ B) :
    -((l.length : ℚ) * B) ≤ finSum l ∧ finSum l ≤ (l.length : ℚ) * B := by
  induction l with
  | nil => simp [finSum]
  | cons f t ih =>
    rcases h f (List.mem_cons_self _ _) with ⟨q, rfl, hq1, hq2⟩
    have ht := ih fun g hg => h g (List.mem_cons_of_mem _ hg)
    rw [finSum]
    simp only [List.length_cons]
    push_cast
    constructor
    · nlinarith [ht.1, ht.2]
    · nlinarith [ht.1, ht.2]

theorem flMean_ok (B : ℚ) (l : List Fl) (h : ∀ f ∈ l, FlOK B f) : FlOK B (flMean l) := by
  unfold flMean
  split
  · exact Or.inl rfl
  · split
    · exact Or.inl rfl
    · next hne hnan =>
      have hfin : ∀ f ∈ l, ∃ q, f = Fl.fin q ∧ -B ≤ q ∧ q ≤ B := by
        intro f hf
        rcases h f hf with hn | hq
        · exact absurd (hn ▸ hf) hnan
        · exact hq
      have hs := finSum_bounds B l hfin
      have hlen : 0 < (l.length : ℚ) := by
        have : l ≠ [] := by assumption
        have : 0 < l.length := List.length_pos.mpr this
        exact_mod_cast this
      refine Or.inr ⟨finSum l / l.length, rfl, ?_, ?_⟩
      · rw [le_div_iff₀ hlen]
        calc -B * (l.length : ℚ) = -((l.length : ℚ) * B) := by ring
        _ ≤ finSum l := hs.1
      · rw [div_le_iff₀ hlen]
        calc finSum l ≤ (l.length : ℚ) * B := hs.2
        _ = B * (l.length : ℚ) := by ring

theorem clip_mem (B x : ℚ) (hB : 0 ≤ B) : -B ≤ clip B x ∧ clip B x ≤ B := by
  unfold clip
  constructor
  · exact le_max_left _ _
  · exact max_le (by linarith) (min_le_right _ _)

theorem rawT_ok (p : Params) (log2 : ℚ → ℚ) (prof : Profile) (g : Chan4)
    (hB : 0 ≤ p.bound) : EntryOK p.bound (rawT p log2 prof g) := by
  unfold rawT
  split
  · exact Or.inl rfl
  · right
    refine ⟨_, rfl, Or.inr ⟨_, rfl, ?_, ?_⟩⟩
    · exact (clip_mem p.bound _ hB).1
    · exact (clip_mem p.bound _ hB).2

theorem numsOf_mem {l : List Entry} {f : Fl} (h : f ∈ numsOf l) : Entry.num f ∈ l := by
  unfold numsOf at h
  rcases List.mem_filterMap.mp h with ⟨e, he, hfe⟩
  cases e with
  | empty => exact absurd hfe (by simp)
  | num f' =>
    have : f' = f := by simpa using hfe
    exact this ▸ he

theorem winSlice_subset {L : ℕ} {acc : List Entry} {k : ℕ} {e : Entry}
    (h : e ∈ winSlice L acc k) : e ∈ acc := by
  unfold winSlice at h
  exact List.mem_of_mem_drop (List.mem_of_mem_take h)

theorem imputeStepF_ok {B : ℚ} {L : ℕ} {acc : List Entry} (k : ℕ)
    (h : ∀ e ∈ acc, EntryOK B e) : ∀ e ∈ imputeStepF L acc k, EntryOK B e := by
  unfold imputeStepF
  split
  · intro e he
    rcases List.mem_or_eq_of_mem_set he with hmem | rfl
    · exact h e hmem
    · refine Or.inr ⟨_, rfl, flMean_ok B _ ?_⟩
      intro f hf
      rcases h _ (winSlice_subset (numsOf_mem hf)) with habs | ⟨f', hf', hok⟩
      · exact absurd habs (by simp)
      · have : f' = f := by
          have := Entry.num.inj hf'.symm
          exact this.symm ▸ rfl
        exact this ▸ hok
  · exact h

theorem imputeLoop_ok {B : ℚ} {L : ℕ} (ks : List ℕ) (acc : List Entry)
    (h : ∀ e ∈ acc, EntryOK B e) : ∀ e ∈ imputeLoop L acc ks, EntryOK B e := by
  induction ks generalizing acc with
  | nil => exact h
  | cons k ks ih => exact ih _ (imputeStepF_ok k h)

/-- C4 counterexample: a record whose three signal positions are all
missing passes the missing-count check (3 < 5), converts successfully, and
its imputed values are NaN — not values in `[-bound, bound]` as claimed. -/
theorem convert_bounds_claim_cex :
    convertSignal params (fun q => q) ⟨1, 1, 1, 1⟩
        (List.replicate 52 ⟨1, 1, 1, 1⟩ ++ List.replicate 3 ⟨0, 0, 0, 0⟩) =
      some [Entry.num (.fin 500), Entry.num .nan, Entry.num .nan, Entry.num .nan] ∧
    Entry.num Fl.nan ∈
      List.tail [Entry.num (.fin 500), Entry.num .nan, Entry.num .nan, Entry.num .nan] ∧
    ¬ ∃ q : ℚ, Entry.num Fl.nan = Entry.num (Fl.fin q) ∧ -params.bound ≤ q ∧
      q ≤ params.bound := by
  refine ⟨?_, by decide, ?_⟩
  · have hsig : signalGroups params
        (List.replicate 52 (⟨1, 1, 1, 1⟩ : Chan4) ++ List.replicate 3 ⟨0, 0, 0, 0⟩) =
        List.replicate 3 ⟨0, 0, 0, 0⟩ := by
      have h52 : (List.replicate 52 (⟨1, 1, 1, 1⟩ : Chan4)).length = 52 := by simp
      rw [signalGroups, show params.r1_len + params.dis2T = 52 from rfl]
      exact List.drop_left' h52
    rw [convertSignal]
    rw [hsig]
    simp only [List.replicate, List.map_cons, List.map_nil]
    rw [show rawT params (fun q => q) ⟨1, 1, 1, 1⟩ ⟨0, 0, 0, 0⟩ = Entry.empty from rfl]
    norm_num [countEmpty, imputePass, imputeLoop, imputeStepF, winSlice, numsOf, flMean,
      finSum, List.range_succ, params]
  · rintro ⟨q, hq, -⟩
    exact Fl.noConfusion (Entry.num.inj hq)

/-- C4 (amended): a successful conversion returns the signal-region length
plus one values, headed by the sentinel `bound * 100`; every further value
is either a finite value in `[-bound, bound]` or NaN (NaN arises only for an
imputed position whose window mean is undefined or itself NaN). -/
theorem convert_output_invariants (p : Params) (log2 : ℚ → ℚ) (prof : Profile)
    (groups : List Chan4) (out : List Entry) (hB : 0 ≤ p.bound)
    (h : convertSignal p log2 prof groups = some out) :
    out.length = (signalGroups p groups).length + 1 ∧
    out.head? = some (Entry.num (.fin (p.bound * 100))) ∧
    ∀ e ∈ out.tail, (∃ q, e = Entry.num (.fin q) ∧ -p.bound ≤ q ∧ q ≤ p.bound) ∨
      e = Entry.num Fl.nan := by
  have hdef : convertSignal p log2 prof groups =
      if p.all_zero_limit ≤ countEmpty ((signalGroups p groups).map (rawT p log2 prof)) then
        none
      else
        Option.some (Entry.num (.fin (p.bound * 100)) ::
          imputePass p.all_zero_limit ((signalGroups p groups).map (rawT p log2 prof))) := rfl
  rw [hdef] at h
  split at h
  · exact absurd h (by simp)
  · have hout : out = Entry.num (.fin (p.bound * 100)) ::
        imputePass p.all_zero_limit ((signalGroups p groups).map (rawT p log2 prof)) :=
      (Option.some.inj h).symm
    subst hout
    refine ⟨by simp [length_imputePass], rfl, ?_⟩
    intro e he
    have hok : EntryOK p.bound e := by
      refine imputeLoop_ok _ _ ?_ e he
      intro e' he'
      rcases List.mem_map.mp he' with ⟨g, -, rfl⟩
      exact rawT_ok p log2 prof g hB
    have hne : e ≠ Entry.empty :=
      countEmpty_eq_zero.mp (countEmpty_imputePass _ _) e he
    rcases hok with habs | ⟨f, rfl, hf⟩
    · exact absurd habs hne
    · rcases hf with rfl | ⟨q, rfl, hq1, hq2⟩
      · exact Or.inr rfl
      · exact Or.inl ⟨q, rfl, hq1, hq2⟩

/-- Witness for the conversion-invariants theorem at a concrete record. -/
theorem convert_output_invariants_witness :
    (Entry.num (.fin (Params.bound { r1_len := 0, all_zero_limit := 2 } * 100)) ::
      imputePass 2 ((signalGroups { r1_len := 0, all_zero_limit := 2 }
        [⟨0, 0, 0, 0⟩, ⟨1, 1, 1, 2⟩]).map
        (rawT { r1_len := 0, all_zero_limit := 2 } (fun q => q) ⟨1, 1, 1, 1⟩))).length =
      (signalGroups { r1_len := 0, all_zero_limit := 2 }
        [⟨0, 0, 0, 0⟩, ⟨1, 1, 1, 2⟩]).length + 1 :=
  (convert_output_invariants { r1_len := 0, all_zero_limit := 2 } (fun q => q) ⟨1, 1, 1, 1⟩
    [⟨0, 0, 0, 0⟩, ⟨1, 1, 1, 2⟩] _ (by decide) rfl).1

/-! ## The boundary rule of the tail-length caller -/

theorem nonAIdx_sublist (states : List ℕ) :
    (nonAIdx states).Sublist (states.enum.map Prod.fst) := by
  unfold nonAIdx
  induction states.enum with
  | nil => simp
  | cons x t ih =>
    rw [List.filterMap_cons, List.map_cons]
    by_cases h : (hmmN - 1) / 2 < x.2
    · rw [if_pos h]
      exact ih.cons₂ _
    · rw [if_neg h]
      exact ih.cons _

theorem nonAIdx_pairwise (states : List ℕ) :
    (nonAIdx states).Pairwise (· < ·) := by
  have h1 : (states.enum.map Prod.fst).Pairwise (· < ·) := by
    rw [List.enum_map_fst]
    exact List.pairwise_lt_range _
  exact h1.sublist (nonAIdx_sublist states)

theorem nonAIdx_lt_length {states : List ℕ} {i : ℕ} (h : i ∈ nonAIdx states) :
    i < states.length := by
  have h1 : i ∈ states.enum.map Prod.fst := (nonAIdx_sublist states).subset h
  rw [List.enum_map_fst, List.mem_range] at h1
  exact h1

/-- Characterization of the scanning loop on a strictly increasing index
list: the final `start_idx` is the last index not exceeding the limit (or
the initial value when there is none), and the final `end_idx` is the first
index exceeding the limit (or the initial value when there is none). -/
theorem scanIdx_spec (limit : ℕ) (ns : List ℕ) (s0 e0 : ℕ)
    (hsort : ns.Pairwise (· < ·)) :
    (((scanIdx limit ns (s0, e0)).1 = s0 ∧ ∀ i ∈ ns, limit < i) ∨
      ((scanIdx limit ns (s0, e0)).1 ∈ ns ∧ (scanIdx limit ns (s0, e0)).1 ≤ limit ∧
        ∀ i ∈ ns, i ≤ limit → i ≤ (scanIdx limit ns (s0, e0)).1)) ∧
    (((scanIdx limit ns (s0, e0)).2 = e0 ∧ ∀ i ∈ ns, i ≤ limit) ∨
      ((scanIdx limit ns (s0, e0)).2 ∈ ns ∧ limit < (scanIdx limit ns (s0, e0)).2 ∧
        ∀ i ∈ ns, limit < i → (scanIdx limit ns (s0, e0)).2 ≤ i)) := by
  induction ns generalizing s0 e0 with
  | nil =>
    constructor
    · exact Or.inl ⟨rfl, by simp⟩
    · exact Or.inl ⟨rfl, by simp⟩
  | cons n rest ih =>
    have hlt : ∀ j ∈ rest, n < j := fun j hj => (List.pairwise_cons.mp hsort).1 j hj
    have hrest : rest.Pairwise (· < ·) := (List.pairwise_cons.mp hsort).2
    by_cases hn : n ≤ limit
    · have hstep : scanIdx limit (n :: rest) (s0, e0) = scanIdx limit rest (n, e0) := by
        rw [scanIdx, if_pos hn]
      rw [hstep]
      rcases ih n e0 hrest with ⟨hs, he⟩
      constructor
      · rcases hs with ⟨heq, hall⟩ | ⟨hmem, hle, hmax⟩
        · right
          rw [heq]
          refine ⟨List.mem_cons_self _ _, hn, ?_⟩
          intro i hi hile
          rcases List.mem_cons.mp hi with rfl | hi'
          · exact le_refl i
          · exact absurd hile (not_le.mpr (hall i hi'))
        · refine Or.inr ⟨List.mem_cons_of_mem _ hmem, hle, ?_⟩
          intro i hi hile
          rcases List.mem_cons.mp hi with rfl | hi'
          · exact le_of_lt (hlt _ hmem)
          · exact hmax i hi' hile
      · rcases he with ⟨heq, hall⟩ | ⟨hmem, hgt, hmin⟩
        · refine Or.inl ⟨heq, ?_⟩
          intro i hi
          rcases List.mem_cons.mp hi with rfl | hi'
          · exact hn
          · exact hall i hi'
        · refine Or.inr ⟨List.mem_cons_of_mem _ hmem, hgt, ?_⟩
          intro i hi higt
          rcases List.mem_cons.mp hi with rfl | hi'
          · exact absurd higt (not_lt.mpr hn)
          · exact hmin i hi' higt
    · have hstep : scanIdx limit (n :: rest) (s0, e0) = (s0, n) := by
        rw [scanIdx, if_neg hn]
      rw [hstep]
      constructor
      · refine Or.inl ⟨rfl, ?_⟩
        intro i hi
        rcases List.mem_cons.mp hi with rfl | hi'
        · exact not_le.mp hn
        · exact lt_trans (not_le.mp hn) (hlt i hi')
      · refine Or.inr ⟨List.mem_cons_self _ _, not_le.mp hn, ?_⟩
        intro i hi _
        rcases List.mem_cons.mp hi with rfl | hi'
        · exact le_refl i
        · exact le_of_lt (hlt i hi')

/-- C1: for every non-empty state path, the boundary rule returns
`tailLength = end_idx - start_idx - 1`, where `start_idx` is the largest
non-A index not exceeding the limit (0 if none exists) and `end_idx` is the
first non-A index strictly exceeding the limit (the path length if none
exists); moreover `start_idx < end_idx ≤ length`, so the tail length is
never negative. -/
theorem callTail_boundary_rule (limit : ℕ) (states : List ℕ) (hne : states ≠ []) :
    (callTail limit states).2.2 =
      ((callTail limit states).2.1 : ℤ) - ((callTail limit states).1 : ℤ) - 1 ∧
    (((callTail limit states).1 = 0 ∧ ∀ i ∈ nonAIdx states, limit < i) ∨
      ((callTail limit states).1 ∈ nonAIdx states ∧ (callTail limit states).1 ≤ limit ∧
        ∀ i ∈ nonAIdx states, i ≤ limit → i ≤ (callTail limit states).1)) ∧
    (((callTail limit states).2.1 = states.length ∧ ∀ i ∈ nonAIdx states, i ≤ limit) ∨
      ((callTail limit states).2.1 ∈ nonAIdx states ∧ limit < (callTail limit states).2.1 ∧
        ∀ i ∈ nonAIdx states, limit < i → (callTail limit states).2.1 ≤ i)) ∧
    (callTail limit states).1 < (callTail limit states).2.1 ∧
    (callTail limit states).2.1 ≤ states.length ∧
    0 ≤ (callTail limit states).2.2 := by
  have hspec := scanIdx_spec limit (nonAIdx states) 0 states.length (nonAIdx_pairwise states)
  have hs1 : (callTail limit states).1 = (scanIdx limit (nonAIdx states) (0, states.length)).1 :=
    rfl
  have he1 : (callTail limit states).2.1 =
      (scanIdx limit (nonAIdx states) (0, states.length)).2 := rfl
  have htl : (callTail limit states).2.2 =
      ((callTail limit states).2.1 : ℤ) - ((callTail limit states).1 : ℤ) - 1 := rfl
  have hslim : (callTail limit states).1 ≤ limit := by
    rw [hs1]
    rcases hspec.1 with ⟨heq, -⟩ | ⟨-, hle, -⟩
    · rw [heq]; exact Nat.zero_le _
    · exact hle
  have hsbound : (callTail limit states).1 < states.length := by
    rw [hs1]
    rcases hspec.1 with ⟨heq, -⟩ | ⟨hmem, -, -⟩
    · rw [heq]
      exact List.length_pos.mpr hne
    · exact nonAIdx_lt_length hmem
  have hebound : (callTail limit states).2.1 ≤ states.length := by
    rw [he1]
    rcases hspec.2 with ⟨heq, -⟩ | ⟨hmem, -, -⟩
    · rw [heq]
    · exact le_of_lt (nonAIdx_lt_length hmem)
  have hlt : (callTail limit states).1 < (callTail limit states).2.1 := by
    rw [he1]
    rcases hspec.2 with ⟨heq, -⟩ | ⟨-, hgt, -⟩
    · rw [heq]; exact hsbound
    · exact lt_of_le_of_lt hslim hgt
  refine ⟨htl, ?_, ?_, hlt, hebound, ?_⟩
  · rw [hs1]; exact hspec.1
  · rw [he1]; exact hspec.2
  · rw [htl]
    have := hlt
    omega

/-- Witness for the boundary-rule theorem: path `[0, 1, 1, 3, 1, 4]` with
limit 2 gives `start_idx = 0`, `end_idx = 3`, tail length 2. -/
theorem callTail_boundary_rule_witness :
    0 ≤ (callTail 2 [0, 1, 1, 3, 1, 4]).2.2 :=
  (callTail_boundary_rule 2 [0, 1, 1, 3, 1, 4] (by decide)).2.2.2.2.2

/-! ## Normalization failure and its short-circuit -/

theorem normBucket_eq_nil (p : Params) (r1seq : List Char) (groups : List Chan4) (c : Char) :
    normBucket p r1seq groups c = [] ↔ ∀ i ∈ normPositions p,
      ¬(r1seq.getD (i - 1) 'N' = c ∧
        0 < chanOf (groups.getD (i - 1) ⟨0, 0, 0, 0⟩) c) := by
  unfold normBucket
  rw [List.filterMap_eq_nil_iff]
  constructor
  · intro h i hi hcond
    have h1 := h i hi
    rw [if_pos hcond] at h1
    exact Option.some_ne_none _ h1
  · intro h i hi
    rw [if_neg (h i hi)]

theorem normalize_eq_none (p : Params) (r1seq : List Char) (groups : List Chan4) :
    normalize p r1seq groups = none ↔
      (normBucket p r1seq groups 'A' = [] ∨ normBucket p r1seq groups 'C' = [] ∨
        normBucket p r1seq groups 'G' = [] ∨ normBucket p r1seq groups 'T' = []) := by
  unfold normalize
  split
  · next h => simp [h]
  · next h => simp [h]

/-- C5: normalization fails for a record exactly when some channel has no
normalization-window position at which that base was called with strictly
positive intensity in that channel; on failure the conversion phase is never
entered (`Convert2T` returns `None` immediately), and the record is silently
skipped by `worker_C2T` while the remaining lines are still processed. -/
theorem normalization_failure_short_circuit (p : Params) (log2 : ℚ → ℚ)
    (r1seq : List Char) (groups : List Chan4) :
    (normalize p r1seq groups = none ↔
      ∃ c ∈ ['A', 'C', 'G', 'T'], ∀ i ∈ normPositions p,
        ¬(r1seq.getD (i - 1) 'N' = c ∧
          0 < chanOf (groups.getD (i - 1) ⟨0, 0, 0, 0⟩) c))
    ∧ (normalize p r1seq groups = none → Convert2T p log2 r1seq groups = none)
    ∧ (∀ (mdict : List (String × MEntry)) (trainKeys : List String)
        (lines : List C2TLine) (d : C2TOut) (t : List (List Entry)) (x : String),
        (∀ l ∈ lines, l.id = x → convFor p log2 mdict l = none) →
        (worker_C2T p log2 mdict trainKeys lines d t).1.find? (fun e => e.1 == x) =
          d.find? (fun e => e.1 == x)) := by
  refine ⟨?_, ?_, ?_⟩
  · rw [normalize_eq_none]
    constructor
    · rintro (h | h | h | h)
      · exact ⟨'A', by simp, (normBucket_eq_nil p r1seq groups 'A').mp h⟩
      · exact ⟨'C', by simp, (normBucket_eq_nil p r1seq groups 'C').mp h⟩
      · exact ⟨'G', by simp, (normBucket_eq_nil p r1seq groups 'G').mp h⟩
      · exact ⟨'T', by simp, (normBucket_eq_nil p r1seq groups 'T').mp h⟩
    · rintro ⟨c, hc, h⟩
      simp only [List.mem_cons, List.not_mem_nil, or_false] at hc
      rcases hc with rfl | rfl | rfl | rfl
      · exact Or.inl ((normBucket_eq_nil p r1seq groups _).mpr h)
      · exact Or.inr (Or.inl ((normBucket_eq_nil p r1seq groups _).mpr h))
      · exact Or.inr (Or.inr (Or.inl ((normBucket_eq_nil p r1seq groups _).mpr h)))
      · exact Or.inr (Or.inr (Or.inr ((normBucket_eq_nil p r1seq groups _).mpr h)))
  · intro h
    unfold Convert2T
    rw [h]
  · intro mdict trainKeys lines d t x h
    induction lines generalizing d t with
    | nil => rfl
    | cons l rest ih =>
      have hrest : ∀ l' ∈ rest, l'.id = x → convFor p log2 mdict l' = none :=
        fun l' hl' => h l' (List.mem_cons_of_mem _ hl')
      rw [worker_C2T]
      split
      · exact ih _ _ hrest
      · next me hmd =>
        split
        · exact ih _ _ hrest
        · next temp hcv =>
          have hne : l.id ≠ x := by
            intro hx
            have hcf := h l (List.mem_cons_self _ _) hx
            rw [convFor] at hcf
            simp [hmd, hcv] at hcf
          simp only []
          rw [ih _ _ hrest]
          by_cases hd : (d.find? (fun e => e.1 == l.id)).isSome
          · rw [if_pos hd]
          · rw [if_neg hd, List.find?_append]
            have hx : ([(l.id, me.2.gene, temp)].find? (fun e => e.1 == x)) = none := by
              have hbeq : ((l.id, me.2.gene, temp).1 == x) = false := by
                simpa using hne
              simp [List.find?, hbeq]
            rw [hx, Option.or_none]

/-- Witness for the short-circuit theorem: a read-1 sequence calling only
base A leaves the C bucket empty, so the record's conversion is skipped. -/
theorem normalization_failure_short_circuit_witness :
    Convert2T { r1_nor_start := 1, r1_nor_end := 1 } (fun q => q) ['A'] [⟨1, 1, 1, 1⟩] =
      none :=
  (normalization_failure_short_circuit { r1_nor_start := 1, r1_nor_end := 1 } (fun q => q)
    ['A'] [⟨1, 1, 1, 1⟩]).2.1 (by decide)

/-! ## Fatal abort of the decoding worker -/

/-- C8: the decoding worker aborts (models `sys.exit`) exactly when some
line's decoded state path is empty; when every line decodes to a non-empty
path the worker succeeds and produces one `(gene, tail length)` pair per
line. -/
theorem worker_hmm_abort (v : List ℚ → List ℕ) (limit : ℕ) (lines : List SigLine)
    (d : HmmOut) (t : List (String × ℤ)) :
    ((worker_hmm v limit lines d t).isOk = true ↔ ∀ l ∈ lines, v l.sig ≠ []) ∧
    (∀ d' t', worker_hmm v limit lines d t = .ok (d', t') →
      t'.length = t.length + lines.length) := by
  induction lines generalizing d t with
  | nil =>
    constructor
    · simp [worker_hmm, Except.isOk, Except.toBool]
    · intro d' t' h
      have := Except.ok.inj h
      rw [show t' = t from congrArg Prod.snd this.symm]
      simp
  | cons l rest ih =>
    rw [worker_hmm]
    by_cases hv : v l.sig = []
    · rw [if_pos hv]
      constructor
      · constructor
        · intro habs
          exact absurd habs (by simp [Except.isOk, Except.toBool])
        · intro hall
          exact absurd hv (hall l (List.mem_cons_self _ _))
      · intro d' t' h
        exact absurd h (by simp)
    · rw [if_neg hv]
      constructor
      · rw [(ih _ _).1]
        constructor
        · intro hall i hi
          rcases List.mem_cons.mp hi with rfl | hi'
          · exact hv
          · exact hall i hi'
        · intro hall i hi
          exact hall i (List.mem_cons_of_mem _ hi)
      · intro d' t' h
        have := (ih _ _).2 d' t' h
        simp only [List.length_append, List.length_cons, List.length_nil] at this
        simp only [List.length_cons]
        omega

/-- Witness for the worker-abort theorem: one line decoding to a non-empty
path yields a successful worker run. -/
theorem worker_hmm_abort_witness :
    (worker_hmm (fun _ => [0, 1, 4]) 2 [⟨"r1", "gene1", [500, 1, -1]⟩] [] []).isOk = true :=
  (worker_hmm_abort (fun _ => [0, 1, 4]) 2 [⟨"r1", "gene1", [500, 1, -1]⟩] [] []).1.mpr
    (by intro l hl; simp at hl; subst hl; simp)

/-! ## Master-dictionary deduplication -/

theorem find?_eq_head?_filter {α : Type} (p : α → Bool) (l : List α) :
    l.find? p = (l.filter p).head? := by
  induction l with
  | nil => rfl
  | cons a t ih =>
    by_cases h : p a
    · rw [List.find?_cons_of_pos _ h, List.filter_cons_of_pos h]
      rfl
    · rw [List.find?_cons_of_neg _ h, List.filter_cons_of_neg (by simpa using h), ih]

theorem find?_congr_on {α : Type} {p q : α → Bool} (l : List α)
    (h : ∀ a ∈ l, p a = q a) : l.find? p = l.find? q := by
  induction l with
  | nil => rfl
  | cons a t ih =>
    have ha := h a (List.mem_cons_self _ _)
    have ht := ih fun a' ha' => h a' (List.mem_cons_of_mem _ ha')
    by_cases hp : p a
    · rw [List.find?_cons_of_pos _ hp, List.find?_cons_of_pos _ (ha ▸ hp)]
    · rw [List.find?_cons_of_neg _ hp, List.find?_cons_of_neg _ (by rw [← ha]; exact hp), ht]

/-- Invariant of the first pass over the `(identifier, gene)` stream, for an
arbitrary starting accumulator: the dictionary holds the first entry seen
for each identifier, and the duplicate set holds exactly the identifiers
seen at least twice (counting an occurrence already in the dictionary). -/
theorem mdictFold_spec (s : List (String × String)) :
    ∀ (m : List (String × String)) (dups : List String) (id : String),
      ((s.foldl mdictStep (m, dups)).1.find? (fun e => e.1 == id) =
        (m.find? (fun e => e.1 == id)).or (s.find? (fun e => e.1 == id)))
      ∧ (id ∈ (s.foldl mdictStep (m, dups)).2 ↔ id ∈ dups ∨
          ((m.find? (fun e => e.1 == id)).isSome = true ∧
            1 ≤ s.countP (fun e => e.1 == id)) ∨
          2 ≤ s.countP (fun e => e.1 == id)) := by
  induction s with
  | nil =>
    intro m dups id
    constructor
    · simp [Option.or_none]
    · simp
  | cons e rest ih =>
    intro m dups id
    rw [List.foldl_cons]
    by_cases hin : (m.find? (fun x => x.1 == e.1)).isSome = true
    · have hstep : mdictStep (m, dups) e =
          (m, if dups.contains e.1 then dups else dups ++ [e.1]) := by
        rw [mdictStep, if_pos hin]
      rw [hstep]
      rcases ih m (if dups.contains e.1 then dups else dups ++ [e.1]) id with ⟨ihf, ihm⟩
      have hcnt : (e :: rest).countP (fun x => x.1 == id) =
          rest.countP (fun x => x.1 == id) + (if (e.1 == id) = true then 1 else 0) :=
        List.countP_cons _ _ _
      constructor
      · rw [ihf]
        rcases hmf : m.find? (fun x => x.1 == id) with _ | v
        · have hkp : ¬((fun x : String × String => x.1 == id) e = true) := by
            intro hx
            rw [show e.1 = id from beq_iff_eq.mp hx] at hin
            rw [hmf] at hin
            simp at hin
          rw [@List.find?_cons_of_neg _ (fun x => x.1 == id) e rest hkp]
        · rw [hmf]
          simp [Option.or]
      · rw [ihm, hcnt]
        by_cases hkp : (e.1 == id) = true
        · have hide : e.1 = id := beq_iff_eq.mp hkp
          have hms : (m.find? (fun x => x.1 == id)).isSome = true := hide ▸ hin
          have hdups : id ∈ (if dups.contains e.1 then dups else dups ++ [e.1]) ↔
              id ∈ dups ∨ id = e.1 := by
            split
            · next hc =>
              constructor
              · exact fun hx => Or.inl hx
              · rintro (hx | rfl)
                · exact hx
                · exact List.mem_of_elem_eq_true hc
            · next hc =>
              rw [List.mem_append]
              simp [eq_comm, hide]
          rw [hdups, if_pos hkp]
          constructor
          · intro _
            exact Or.inr (Or.inl ⟨hms, by omega⟩)
          · intro _
            exact Or.inl (Or.inr hide.symm)
        · have hdups : id ∈ (if dups.contains e.1 then dups else dups ++ [e.1]) ↔
              id ∈ dups := by
            split
            · exact Iff.rfl
            · rw [List.mem_append]
              have : ¬(id ∈ [e.1]) := by
                simp only [List.mem_singleton]
                intro hx
                exact hkp (beq_iff_eq.mpr hx.symm)
              constructor
              · rintro (hx | hx)
                · exact hx
                · exact absurd hx this
              · exact fun hx => Or.inl hx
          rw [hdups, if_neg hkp]
          simp only [Nat.add_zero]
    · have hstep : mdictStep (m, dups) e = (m ++ [e], dups) := by
        rw [mdictStep, if_neg hin]
      rw [hstep]
      rcases ih (m ++ [e]) dups id with ⟨ihf, ihm⟩
      have hcnt : (e :: rest).countP (fun x => x.1 == id) =
          rest.countP (fun x => x.1 == id) + (if (e.1 == id) = true then 1 else 0) :=
        List.countP_cons _ _ _
      have hmapp : (m ++ [e]).find? (fun x => x.1 == id) =
          (m.find? (fun x => x.1 == id)).or ([e].find? (fun x => x.1 == id)) :=
        List.find?_append
      constructor
      · rw [ihf, hmapp]
        rcases hmf : m.find? (fun x => x.1 == id) with _ | v
        · rw [hmf, Option.none_or, Option.none_or]
          by_cases hkp : ((fun x : String × String => x.1 == id) e = true)
          · rw [@List.find?_cons_of_pos _ (fun x => x.1 == id) e rest hkp,
              @List.find?_cons_of_pos _ (fun x => x.1 == id) e [] hkp]
            simp [Option.or]
          · rw [@List.find?_cons_of_neg _ (fun x => x.1 == id) e rest hkp,
              @List.find?_cons_of_neg _ (fun x => x.1 == id) e [] hkp]
            rfl
        · rw [hmf]
          simp [Option.or]
      · rw [ihm, hcnt, hmapp]
        by_cases hkp : ((fun x : String × String => x.1 == id) e = true)
        · have hkp' : (e.1 == id) = true := hkp
          have hide : e.1 = id := beq_iff_eq.mp hkp
          have hmf : m.find? (fun x => x.1 == id) = none := by
            rcases hx : m.find? (fun x => x.1 == id) with _ | v
            · exact hx
            · rw [hide] at hin
              rw [hx] at hin
              simp at hin
          rw [hmf, Option.none_or, if_pos hkp',
            @List.find?_cons_of_pos _ (fun x => x.1 == id) e [] hkp]
          simp only [Option.isSome_some, true_and, Option.isSome_none,
            Bool.false_eq_true, false_and, false_or]
          constructor
          · rintro (hx | hx | hx)
            · exact Or.inl hx
            · exact Or.inr (by omega)
            · exact Or.inr (by omega)
          · rintro (hx | hx)
            · exact Or.inl hx
            · exact Or.inr (Or.inl (by omega))
        · have hkp' : ¬((e.1 == id) = true) := hkp
          have hnone : [e].find? (fun x => x.1 == id) = none :=
            @List.find?_cons_of_neg _ (fun x => x.1 == id) e [] hkp
          rw [hnone, Option.or_none, if_neg hkp']
          simp only [Nat.add_zero]

/-- C7 counterexample: an identifier appearing on two lines with the same
gene is dropped from the master dictionary, although the claim says it is
kept. -/
theorem mdict_dedup_claim_cex :
    List.filter (fun e => e.1 == "r") [(("r" : String), ("g" : String)), ("r", "g")] =
      [(("r" : String), ("g" : String)), ("r", "g")] ∧
    (buildMdict [(("r" : String), ("g" : String)), ("r", "g")]).find?
      (fun e => e.1 == "r") = none := by
  constructor
  · decide
  · decide

/-- C7 (amended): when building the read-to-gene map, exactly those
identifiers that appear on more than one line of the stream are dropped —
even when all their genes agree; an identifier appearing on exactly one line
is kept with that line's gene. -/
theorem mdict_dedup_amended (s : List (String × String)) (id g : String) :
    (buildMdict s).find? (fun e => e.1 == id) = some (id, g) ↔
      s.filter (fun e => e.1 == id) = [(id, g)] := by
  have haux := mdictFold_spec s [] [] id
  have hmfind : (mdictPass s).1.find? (fun e => e.1 == id) =
      s.find? (fun e => e.1 == id) := by
    rw [show mdictPass s = s.foldl mdictStep ([], []) from rfl, haux.1]
    rfl
  have hdups : id ∈ (mdictPass s).2 ↔ 2 ≤ s.countP (fun e => e.1 == id) := by
    rw [show mdictPass s = s.foldl mdictStep ([], []) from rfl, haux.2]
    simp
  have hbuild : (buildMdict s).find? (fun e => e.1 == id) =
      if id ∈ (mdictPass s).2 then none else s.find? (fun e => e.1 == id) := by
    rw [buildMdict, List.find?_filter]
    split
    · next hdin =>
      rw [List.find?_eq_none]
      intro x _ hx
      rcases of_decide_eq_true hx with ⟨hq, hp⟩
      have hxid : x.1 = id := beq_iff_eq.mp hp
      have hcc : (mdictPass s).2.contains x.1 = true := by
        rw [hxid]
        exact List.elem_eq_true_of_mem hdin
      rw [hcc] at hq
      simp at hq
    · next hdin =>
      rw [← hmfind]
      apply find?_congr_on
      intro x _
      by_cases hx : (x.1 == id) = true
      · have hxid : x.1 = id := beq_iff_eq.mp hx
        have hcc : ¬((mdictPass s).2.contains x.1 = true) := by
          rw [hxid]
          intro hcc
          exact hdin (List.mem_of_elem_eq_true hcc)
        have hc : (mdictPass s).2.contains x.1 = false := by
          rcases hb : (mdictPass s).2.contains x.1 with _ | _
          · rfl
          · exact absurd hb hcc
        simp [hc, hx]
        rw [hxid]
        exact hdin
      · simp [hx]
  have hfiltlen : s.countP (fun e => e.1 == id) =
      (s.filter (fun e => e.1 == id)).length := List.countP_eq_length_filter _ _
  have hfind_head : s.find? (fun e => e.1 == id) =
      (s.filter (fun e => e.1 == id)).head? := find?_eq_head?_filter _ _
  constructor
  · intro h
    rw [hbuild] at h
    by_cases hdin : id ∈ (mdictPass s).2
    · rw [if_pos hdin] at h
      exact absurd h (by simp)
    · rw [if_neg hdin] at h
      have hcnt : ¬(2 ≤ s.countP (fun e => e.1 == id)) := fun hc => hdin (hdups.mpr hc)
      rw [hfind_head] at h
      rcases hflt : s.filter (fun e => e.1 == id) with _ | ⟨x, rest⟩
      · rw [hflt] at h
        exact absurd h (by simp)
      · rw [hflt] at h
        have hx : x = (id, g) := Option.some.inj h
        have hrest : rest = [] := by
          rw [hfiltlen, hflt] at hcnt
          simp only [List.length_cons] at hcnt
          exact List.eq_nil_of_length_eq_zero (by omega)
        rw [hx, hrest] at hflt
        exact hflt
  · intro h
    rw [hbuild]
    have hcnt : s.countP (fun e => e.1 == id) = 1 := by
      rw [hfiltlen, h]
      rfl
    rw [if_neg (fun hdin => by rw [hdups, hcnt] at hdin; omega)]
    rw [hfind_head, h]
    rfl

/-- Witness for the amended dedup theorem: a stream with one duplicated and
one unique identifier keeps only the unique one. -/
theorem mdict_dedup_amended_witness :
    (buildMdict [(("r" : String), ("g" : String)), ("s", "h"), ("r", "g2")]).find?
      (fun e => e.1 == "s") = some ("s", "h") :=
  (mdict_dedup_amended [(("r" : String), ("g" : String)), ("s", "h"), ("r", "g2")]
    "s" "h").mpr (by decide)

/-! ## Training-set selection -/

/-- C6 counterexample: a `fish` spike-in pool of 600000 reads yields a
training set of `min(max(int(600000 * 0.01 * 10), 5000), 50000) = 50000`
reads, not `min(max(600000 * 0.01, 5000), 50000) = 6000` as the claim's
formula states. -/
theorem training_size_claim_cex :
    trainSelect params .fish 600000 600000 = some 50000 ∧
    min (max (intTrunc ((600000 : ℚ) * params.training_ratio)) params.training_min)
      params.training_max = 6000 := by
  have h10 : intTrunc (((600000 : ℕ) : ℚ) * params.training_ratio * 10) = 60000 := by
    have h0 : ((600000 : ℕ) : ℚ) * params.training_ratio * 10 = 60000 := by
      norm_num [params]
    rw [h0]
    rfl
  have h1 : intTrunc ((600000 : ℚ) * params.training_ratio) = 6000 := by
    have h2 : (600000 : ℚ) * params.training_ratio = 6000 := by
      norm_num [params]
    rw [h2]
    rfl
  constructor
  · rw [trainSelect, if_pos (by decide), if_pos (by decide), h10]
    norm_num [params]
  · rw [h1]
    norm_num [params]

/-- C6 (amended): the training-set size sampled by mode 1 is
`min(max(int(P * R), M), X)` for the unrestricted pool, but
`min(max(int(P * R * 10), M), X)` — ten times the configured ratio — for a
gene-prefix-restricted (`fish`/`human`) pool; a restricted pool below the
minimum falls back to the unrestricted rule, and an unrestricted pool below
the minimum exits fatally. -/
theorem training_size_amended (p : Params) (t : TrainSel) (seleSize allSize : ℕ) :
    (t ≠ .all → p.training_min ≤ seleSize →
      trainSelect p t seleSize allSize =
        some (min (max (intTrunc ((seleSize : ℚ) * p.training_ratio * 10)) p.training_min)
          p.training_max)) ∧
    (t ≠ .all → seleSize < p.training_min →
      trainSelect p t seleSize allSize = trainAllCase p allSize) ∧
    (p.training_min ≤ allSize →
      trainAllCase p allSize =
        some (min (max (intTrunc ((allSize : ℚ) * p.training_ratio)) p.training_min)
          p.training_max)) ∧
    (allSize < p.training_min → trainAllCase p allSize = none) ∧
    (trainSelect p .all seleSize allSize = trainAllCase p allSize) := by
  refine ⟨?_, ?_, ?_, ?_, ?_⟩
  · intro ht hsele
    rw [trainSelect, if_pos ht, if_pos hsele]
  · intro ht hsele
    rw [trainSelect, if_pos ht, if_neg (by omega)]
  · intro hall
    rw [trainAllCase, if_pos hall]
  · intro hall
    rw [trainAllCase, if_neg (by omega)]
  · rw [trainSelect, if_neg (by simp)]

/-- Witness for the amended training-size theorem: the unrestricted rule at
a pool of 10000 reads. -/
theorem training_size_amended_witness :
    trainAllCase params 10000 =
      some (min (max (intTrunc ((10000 : ℚ) * params.training_ratio)) params.training_min)
        params.training_max) :=
  (training_size_amended params .all 10000 10000).2.2.1 (by decide)

/-! ## The random line sampler -/

/-- C10: the offset sampler returns at most one training sequence per
sampled offset; an offset landing in the last line contributes nothing (so
fewer than `n` sequences may be returned), and two distinct offsets inside
the same line contribute duplicate copies of the following line (so the
returned sequences need not be distinct). -/
theorem lines_sampler_bounds :
    (∀ (file : List Char) (offsets : List ℕ),
      (lines_sampler file offsets).length ≤ offsets.length) ∧
    (List.Pairwise (· < ·) ([3] : List ℕ) ∧ 3 < ("ab\ncd".toList).length ∧
      (lines_sampler "ab\ncd".toList [3]).length < ([3] : List ℕ).length) ∧
    (List.Pairwise (· < ·) ([0, 2] : List ℕ) ∧ 2 < ("a\tb\nx\ty\tu\tw\n".toList).length ∧
      lines_sampler "a\tb\nx\ty\tu\tw\n".toList [0, 2] = [[['u'], ['w']], [['u'], ['w']]] ∧
      (lines_sampler "a\tb\nx\ty\tu\tw\n".toList [0, 2]).length = 2 ∧
      ¬(lines_sampler "a\tb\nx\ty\tu\tw\n".toList [0, 2]).Nodup) := by
  refine ⟨?_, by decide, by decide⟩
  intro file offsets
  exact List.length_filterMap_le _ _

end PalSeq
